import Mathlib

/-!
# Verification of the `kbgo` text chunker (`file_parse/app/core/chunker.py`)

This file shallowly embeds the `TextChunker` class and settles the frozen
claims about it.  Text is modelled as `List Char` (Python `str` indexed by
code points); offsets are `Nat`.  Python's `text[s:e]` (with `0 ≤ s, e`) is
`sliceList`.  Python `int` division-free arithmetic is kept on `Int` where the
sign matters (constructor validation, the `-1` sentinel); inside the chunking
loop all positions are non-negative so `Nat` arithmetic coincides with the
source (`end - chunk_overlap ≤ start` behaves identically under truncated
subtraction because `start ≥ 0`).

The floating-point constants of the source, `int(chunk_size * 0.1)` and
`int(chunk_size * 0.3)`, equal `chunk_size / 10` and `3 * chunk_size / 10`
(floor division) for every chunk size up to far beyond any realistic value,
so they are modelled with `Nat` division.

Regular expressions of the source are embedded as deterministic scanners; a
comment at each one records the pattern it implements and why the scanner
matches the backtracking semantics of the pattern.  `re.IGNORECASE` is
modelled as ASCII case-insensitivity (every character literal appearing in
the affected patterns is ASCII).
-/

namespace Kbgo

/-- Python `\s` on `str`: the Unicode whitespace class used by `re`
(`0x09`–`0x0d`, `0x1c`–`0x1f`, space, `0x85`, `0xa0`, Ogham space mark,
`0x2000`–`0x200a`, line/paragraph separator, `0x202f`, `0x205f`, `0x3000`). -/
def pyIsSpace (c : Char) : Bool :=
  let n := c.toNat
  (9 ≤ n && n ≤ 13) || (28 ≤ n && n ≤ 32) || n == 133 || n == 160 ||
  n == 5760 || (8192 ≤ n && n ≤ 8202) || n == 8232 || n == 8233 ||
  n == 8239 || n == 8287 || n == 12288

/-- The character class `[^\s\)]` used by the URL/path patterns. -/
def urlChar (c : Char) : Bool := !(pyIsSpace c) && c != ')'

/-- ASCII lower-casing, for the `re.IGNORECASE` patterns. -/
def asciiLower (c : Char) : Char :=
  if 'A' ≤ c && c ≤ 'Z' then Char.ofNat (c.toNat + 32) else c

/-- `pat` is an ASCII-case-insensitive prefix of `s` (`pat` given lower-case). -/
def isPrefixOfCI : List Char → List Char → Bool
  | [], _ => true
  | _ :: _, [] => false
  | p :: ps, c :: cs => (asciiLower c == p) && isPrefixOfCI ps cs

/-- Python `text[s:e]` for `0 ≤ s, e` (empty when `e ≤ s`, clipped at the
length). -/
def sliceList (text : List Char) (s e : Nat) : List Char :=
  (text.drop s).take (e - s)

/-- Length of the maximal prefix of `s` whose characters satisfy `p`
(the length matched by a greedy `X*` over the class `p`). -/
def takeRun (p : Char → Bool) : List Char → Nat
  | [] => 0
  | c :: t => if p c then takeRun p t + 1 else 0

/-- Worker for `rfind`: scan left to right remembering the last position where
`pat` is a prefix of the remaining haystack. -/
def rfindGo (pat : List Char) : List Char → Nat → Option Nat → Option Nat
  | [], i, best => if pat.isPrefixOf [] then some i else best
  | c :: t, i, best =>
      rfindGo pat t (i + 1) (if pat.isPrefixOf (c :: t) then some i else best)

/-- Python `hay.rfind(pat)`: the largest index at which `pat` occurs in `hay`
(`none` for Python's `-1`). -/
def rfind (hay pat : List Char) : Option Nat := rfindGo pat hay 0 none

/-! ## Configuration (`app/config/settings.py` and `TextChunker.__init__`) -/

/-- `settings.DEFAULT_SEPARATORS = ["\n\n", "\n", " ", ""]`. -/
def DEFAULT_SEPARATORS : List (List Char) :=
  [['\n', '\n'], ['\n'], [' '], []]

/-- `settings.DEFAULT_CHUNK_SIZE = 1000`. -/
def DEFAULT_CHUNK_SIZE : Int := 1000

/-- `settings.DEFAULT_CHUNK_OVERLAP = 100`. -/
def DEFAULT_CHUNK_OVERLAP : Nat := 100

namespace TextChunker

/-- `self.separators = separators or settings.DEFAULT_SEPARATORS`: a Python
falsy value (the empty list, also covering an omitted/`None` argument) is
replaced by the default separator list. -/
def init_separators (separators : List (List Char)) : List (List Char) :=
  if separators.isEmpty then DEFAULT_SEPARATORS else separators

/-- The validation of `TextChunker.__init__`: `True` iff the constructor
raises `ValueError`.  The source checks, in order:
`chunk_size != -1 and chunk_size <= 0`, then
`chunk_size != -1 and chunk_overlap >= chunk_size`. -/
def init_raises (chunk_size chunk_overlap : Int) : Bool :=
  (chunk_size != -1 && chunk_size ≤ 0) ||
  (chunk_size != -1 && chunk_size ≤ chunk_overlap)

/-! ## `TextChunker._adjust_to_separator` -/

/-- The `for sep in self.separators` loop of `_adjust_to_separator`.
Empty separators are skipped; for the first separator whose right-most
occurrence `idx` satisfies `idx >= min_chunk_length`, if additionally
`start < start + idx + len(sep) <= end` the loop breaks with the new end,
otherwise the scan continues with the next separator. -/
def adjustLoop (min_chunk_length start e : Nat) (chunk : List Char) :
    List (List Char) → Nat
  | [] => e
  | sep :: rest =>
    if sep.isEmpty then adjustLoop min_chunk_length start e chunk rest
    else
      match rfind chunk sep with
      | some idx =>
        if min_chunk_length ≤ idx then
          let new_end := start + idx + sep.length
          if start < new_end ∧ new_end ≤ e then new_end
          else adjustLoop min_chunk_length start e chunk rest
        else adjustLoop min_chunk_length start e chunk rest
      | none => adjustLoop min_chunk_length start e chunk rest

/-- `_adjust_to_separator(text, start, end, chunk)`; the `chunk` argument of
the source always equals `text[start:end]` at the call sites, so it is
recomputed here and only the adjusted end is returned (the source also
returns the matching slice).  `min_chunk_length = max(10, int(chunk_size*0.3))`. -/
def adjust_to_separator (chunk_size : Nat) (separators : List (List Char))
    (text : List Char) (start e : Nat) : Nat :=
  if text.length ≤ e then e
  else
    let chunk := sliceList text start e
    if chunk.length < 10 then e
    else adjustLoop (max 10 (3 * chunk_size / 10)) start e chunk separators

/-! ## `TextChunker._avoid_splitting_images` -/

/-- Continuation of the truncated-image pattern after a matched `![`:
`[^\]]*\]\([^\)]*$`.  The class `[^\]]*` cannot pass a `]`, so the pattern
matches iff the first `]` is immediately followed by `(` and no `)` occurs
afterwards up to the end of the slice (a trailing `$`-exempt newline is
irrelevant because `\n` is itself not `)`). -/
def imgAfterOpen : List Char → Bool
  | [] => false
  | ']' :: '(' :: rest => rest.all (fun c => c != ')')
  | ']' :: _ => false
  | _ :: rest => imgAfterOpen rest

/-- The truncated-image pattern anchored at one position: `![` then
`imgAfterOpen`. -/
def imgOpenAt : List Char → Bool
  | '[' :: rest => imgAfterOpen rest
  | _ => false

/-- `re.search(r'!\[[^\]]*\]\([^\)]*$', chunk)`: some position of `chunk`
starts a truncated Markdown image reference reaching the end of the slice. -/
def hasIncompleteImage : List Char → Bool
  | [] => false
  | c :: rest => (c == '!' && imgOpenAt rest) || hasIncompleteImage rest

/-- Length of a match of `https?://[^\s\)]+` anchored at the head of `s`
(the alternation prefers the `s` variant; on its failure `http` requires
`://` immediately, so the two prefix tests are exhaustive). -/
def urlMatchLenAt (s : List Char) : Option Nat :=
  if List.isPrefixOf ['h', 't', 't', 'p', 's', ':', '/', '/'] s then
    let r := takeRun urlChar (s.drop 8)
    if r == 0 then none else some (8 + r)
  else if List.isPrefixOf ['h', 't', 't', 'p', ':', '/', '/'] s then
    let r := takeRun urlChar (s.drop 7)
    if r == 0 then none else some (7 + r)
  else none

/-- End offset (within the scanned string) of the last match produced by
`self.url_pattern.finditer(...)`: leftmost-match scanning, resuming after
each match, as `re.finditer` does.  The fuel argument (instantiated with the
length of the string plus one) only discharges termination: every recursive
call strictly shortens the scanned list. -/
def finditerLastEnd : Nat → List Char → Nat → Option Nat → Option Nat
  | 0, _, _, best => best
  | _ + 1, [], _, best => best
  | fuel + 1, c :: t, i, best =>
      match urlMatchLenAt (c :: t) with
      | some L => finditerLastEnd fuel ((c :: t).drop L) (i + L) (some (i + L))
      | none => finditerLastEnd fuel t (i + 1) best

/-- The directory alternation of `relative_path_pattern`:
`(?:images|img|assets|media)`. -/
def mediaDirs : List (List Char) :=
  [['i', 'm', 'a', 'g', 'e', 's'], ['i', 'm', 'g'],
   ['a', 's', 's', 'e', 't', 's'], ['m', 'e', 'd', 'i', 'a']]

/-- The directory alternation of the fourth check's `path_pattern`:
`(?:images|img|assets|media|files|uploads|static)`. -/
def pathDirs : List (List Char) :=
  mediaDirs ++ [['f', 'i', 'l', 'e', 's'],
    ['u', 'p', 'l', 'o', 'a', 'd', 's'], ['s', 't', 'a', 't', 'i', 'c']]

/-- The extension alternation `(?:jpeg|jpg|png|gif|svg|webp|pdf|docx|xlsx|pptx)`
(no listed extension is a prefix of another, so alternation order never
changes which one matches). -/
def mediaExts : List (List Char) :=
  [['j', 'p', 'e', 'g'], ['j', 'p', 'g'], ['p', 'n', 'g'],
   ['g', 'i', 'f'], ['s', 'v', 'g'], ['w', 'e', 'b', 'p'],
   ['p', 'd', 'f'], ['d', 'o', 'c', 'x'], ['x', 'l', 's', 'x'],
   ['p', 'p', 't', 'x']]

/-- `[a-f0-9]` under `re.IGNORECASE`. -/
def isHex (c : Char) : Bool :=
  ('0' ≤ c && c ≤ '9') || ('a' ≤ asciiLower c && asciiLower c ≤ 'f')

/-- Python's `$` (no `MULTILINE`): drop a single final newline, if present,
before testing an end-anchored tail. -/
def stripFinalNewline (s : List Char) : List Char :=
  match s.getLast? with
  | some c => if c == '\n' then s.dropLast else s
  | none => s

/-- Tail of `relative_path_pattern` after `/dir/`:
`[a-f0-9]{5,}\.(?:jpeg|...)$` under `IGNORECASE`.  The hex class excludes
`.`, so the greedy repeat must stop exactly at the first non-hex character,
which `\.` then requires to be a dot; `$` allows one final newline. -/
def relPathTail (s : List Char) : Bool :=
  let h := takeRun isHex s
  if h < 5 then false
  else
    match s.drop h with
    | '.' :: r2 =>
        mediaExts.any (fun ex =>
          isPrefixOfCI ex r2 &&
            (r2.drop ex.length == [] || r2.drop ex.length == ['\n']))
    | _ => false

/-- `re.search` of `relative_path_pattern =
r'/(?:images|img|assets|media)/[a-f0-9]{5,}\.(?:jpeg|...)$'` (IGNORECASE)
over the chunk: some position starts `/dir/` followed by a matching
end-anchored tail.  No listed directory extends another one followed by `/`,
so testing the alternatives independently coincides with backtracking. -/
def relPathSearch : List Char → Bool
  | [] => false
  | c :: r =>
      (c == '/' && (mediaDirs.any fun d =>
        isPrefixOfCI (d ++ ['/']) r && relPathTail (r.drop (d.length + 1)))) ||
      relPathSearch r

/-- `re.match(r'[a-f0-9]+\.(?:jpeg|...)', remaining_text, re.IGNORECASE)`:
length of the match at the head of `s`, if any. -/
def relPathExtendLen (s : List Char) : Option Nat :=
  let h := takeRun isHex s
  if h == 0 then none
  else
    match s.drop h with
    | '.' :: r2 =>
        (mediaExts.findSome? fun ex =>
          if isPrefixOfCI ex r2 then some ex.length else none).map
          (fun L => h + 1 + L)
    | _ => none

/-- Tail of the fourth check's `path_pattern` after `/dir/`:
`[^\s\)]{3,}$`.  The class excludes `\n` (a whitespace), so the match is the
whole remaining slice, minus at most one `$`-exempt final newline. -/
def genPathTail (s : List Char) : Bool :=
  let r := stripFinalNewline s
  3 ≤ r.length && r.all urlChar

/-- `re.search` of `path_pattern =
r'/(?:images|img|assets|media|files|uploads|static)/[^\s\)]{3,}$'`
(IGNORECASE) over the chunk. -/
def genPathSearch : List Char → Bool
  | [] => false
  | c :: r =>
      (c == '/' && (pathDirs.any fun d =>
        isPrefixOfCI (d ++ ['/']) r && genPathTail (r.drop (d.length + 1)))) ||
      genPathSearch r

/-- Check 2 of `_avoid_splitting_images` (truncated URL): inspect the last
`min(150, len(chunk))` characters; if the last URL match ends within 10
characters of the tail's end and the remaining text starts with at least one
`[^\s\)]` character, extend by that run.  Returns the new end, or `none` to
fall through to the next check. -/
def check_url (text : List Char) (e : Nat) (chunk : List Char) : Option Nat :=
  let check_length := min 150 chunk.length
  let chunk_tail := chunk.drop (chunk.length - check_length)
  match finditerLastEnd (chunk_tail.length + 1) chunk_tail 0 none with
  | none => none
  | some urlEnd =>
    if chunk_tail.length - 10 ≤ urlEnd then
      let r := takeRun urlChar (text.drop e)
      if r == 0 then none else some (min (e + r) text.length)
    else none

/-- Check 3 of `_avoid_splitting_images` (truncated media path). -/
def check_rel_path (text : List Char) (e : Nat) (chunk : List Char) :
    Option Nat :=
  if relPathSearch chunk then
    match relPathExtendLen (text.drop e) with
    | some L => some (min (e + L) text.length)
    | none => none
  else none

/-- Check 4 of `_avoid_splitting_images` (truncated general path); the
extension run uses `[^\s\)\n]+`, which coincides with `[^\s\)]+` because
`\n` is whitespace. -/
def check_gen_path (text : List Char) (e : Nat) (chunk : List Char) :
    Option Nat :=
  if genPathSearch chunk then
    let r := takeRun urlChar (text.drop e)
    if r == 0 then none else some (min (e + r) text.length)
  else none

/-- Checks 2–4 of `_avoid_splitting_images` in source order, starting from
the unchanged tentative end `e`; each check either returns the extended end
or falls through to the next. -/
def url_path_checks (text : List Char) (start e : Nat) : Nat :=
  let chunk := sliceList text start e
  match check_url text e chunk with
  | some e2 => e2
  | none =>
    match check_rel_path text e chunk with
    | some e2 => e2
    | none =>
      match check_gen_path text e chunk with
      | some e2 => e2
      | none => e

/-- `_avoid_splitting_images(text, start, end, chunk)` (with
`chunk = text[start:end]`, recomputed as in `adjust_to_separator`): check 1
handles a truncated Markdown image by scanning the remaining text for the
next `)`; when one exists at relative offset `k` the end becomes
`min(end + k + 1, len(text))` and the function returns; when none exists the
branch performs no extension and the remaining checks run. -/
def avoid_splitting_images (text : List Char) (start e : Nat) : Nat :=
  let chunk := sliceList text start e
  if hasIncompleteImage chunk then
    match (text.drop e).findIdx? (fun c => c == ')') with
    | some k => min (e + (k + 1)) text.length
    | none => url_path_checks text start e
  else url_path_checks text start e

/-! ## `TextChunker.chunk` -/

/-- The end offset computed by one iteration of the `while` loop of `chunk`:
the tentative end `min(start + chunk_size, len(text))`, forced past `start`
if necessary, then adjusted to a separator, then repaired for protected
tokens, then forced past `start` again. -/
def stepEnd (chunk_size : Nat) (separators : List (List Char))
    (text : List Char) (start : Nat) : Nat :=
  let end0 := min (start + chunk_size) text.length
  let end1 := if end0 ≤ start then start + 1 else end0
  let end2 := adjust_to_separator chunk_size separators text start end1
  let end3 := avoid_splitting_images text start end2
  if end3 ≤ start then start + 1 else end3

/-- The next loop start: `new_start = end - chunk_overlap`, forced to
`start + max(1, int(chunk_size * 0.1))` whenever it fails to advance. -/
def stepNext (chunk_size chunk_overlap : Nat) (separators : List (List Char))
    (text : List Char) (start : Nat) : Nat :=
  let e := stepEnd chunk_size separators text start
  if e - chunk_overlap ≤ start then start + max 1 (chunk_size / 10)
  else e - chunk_overlap

/-- The `while start < text_len` loop of `chunk`, returning the emitted
`(start, end)` spans; the source appends `text[start:end]` for each.  The
fuel argument models `max_iterations = text_len + 1000`: the source
increments `iteration_count` once per iteration and breaks out (keeping the
chunks already accumulated) as soon as it would exceed the bound. -/
def chunkLoop (chunk_size chunk_overlap : Nat) (separators : List (List Char))
    (text : List Char) : Nat → Nat → List (Nat × Nat)
  | start, fuel =>
    if start < text.length then
      match fuel with
      | 0 => []
      | fuel' + 1 =>
        (start, stepEnd chunk_size separators text start) ::
          chunkLoop chunk_size chunk_overlap separators text
            (stepNext chunk_size chunk_overlap separators text start) fuel'
    else []

/-- `TextChunker.chunk`, as the list of `(start, end)` spans of the emitted
chunks.  `chunk_size = -1` and `len(text) <= chunk_size` short-circuit to a
single whole-text span before the loop. -/
def chunkSpans (chunk_size : Int) (chunk_overlap : Nat)
    (separators : List (List Char)) (text : List Char) : List (Nat × Nat) :=
  if chunk_size = -1 then [(0, text.length)]
  else if (text.length : Int) ≤ chunk_size then [(0, text.length)]
  else chunkLoop chunk_size.toNat chunk_overlap separators text 0
    (text.length + 1000)

/-- `TextChunker.chunk` as the list of emitted chunk strings: at every
`chunks.append(chunk)` of the source, `chunk = text[start:end]` holds (both
helpers re-slice whenever they move the end, as does the final safety
net). -/
def chunk (chunk_size : Int) (chunk_overlap : Nat)
    (separators : List (List Char)) (text : List Char) : List (List Char) :=
  (chunkSpans chunk_size chunk_overlap separators text).map
    (fun p => sliceList text p.1 p.2)

end TextChunker

/-! ## Specification-side definitions

These definitions follow the words of the spec / claims (not the source);
each claim theorem compares the source-derived functions above against
them. -/

/-- Spec §4.2 `find_break` as described by claim C5: scan the separators in
priority order skipping the empty string, pick the first separator whose
right-most occurrence in the segment lies at an offset
`≥ max(10, floor(0.3 × chunk_size))`, and return `offset + len(separator)`
(breaking after the separator); `none` if no separator qualifies. -/
def find_break (chunk_size : Nat) : List (List Char) → List Char → Option Nat
  | [], _ => none
  | sep :: rest, chunk =>
    if sep.isEmpty then find_break chunk_size rest chunk
    else
      match rfind chunk sep with
      | some idx =>
        if max 10 (3 * chunk_size / 10) ≤ idx then some (idx + sep.length)
        else find_break chunk_size rest chunk
      | none => find_break chunk_size rest chunk

/-- Claim C4's "segment minus its overlap with the previous one": the overlap
of consecutive segments `[ps, pe)` and `[s, e)` (with `ps ≤ s`) is
`[s, min pe e)` when `s ≤ pe`, so the remainder is `text[min pe e : e]`;
with a gap (`s > pe`) nothing overlaps and the whole segment remains. -/
def dropOverlapWithPrev (text : List Char) (prev cur : Nat × Nat) :
    List Char :=
  if cur.1 ≤ prev.2 then sliceList text (min prev.2 cur.2) cur.2
  else sliceList text cur.1 cur.2

/-- The tail of claim C4's concatenation: every segment after the first
contributes itself minus its overlap with its predecessor. -/
def reconstructRest (text : List Char) :
    Nat × Nat → List (Nat × Nat) → List Char
  | _, [] => []
  | prev, cur :: rest =>
      dropOverlapWithPrev text prev cur ++ reconstructRest text cur rest

/-- Claim C4's concatenation: the first segment taken whole, every later
segment minus its overlap with the previous one. -/
def reconstruct (text : List Char) : List (Nat × Nat) → List Char
  | [] => []
  | p :: rest => sliceList text p.1 p.2 ++ reconstructRest text p rest

/-- The chunking loop with every adjustment phase inactive: pure arithmetic
on offsets.  On texts containing none of the trigger characters
(`\n`, space, `!`, `h`, `/`) the real loop coincides with it. -/
def plainLoop (cs ov n : Nat) : Nat → Nat → List (Nat × Nat)
  | s, fuel =>
    if s < n then
      match fuel with
      | 0 => []
      | fuel' + 1 =>
        let e := min (s + cs) n
        let ns := if e - ov ≤ s then s + max 1 (cs / 10) else e - ov
        (s, e) :: plainLoop cs ov n ns fuel'
    else []

/-! ## Concrete example texts used by counterexamples and witnesses -/

/-- 80 characters: plain letters, then a Markdown image opener `![x](` whose
target runs to a `)` at offset 60, a single space at offset 53, and a plain
tail.  With `chunk_size = 20`, `chunk_overlap = 19`, separators `[" "]`, the
first segment is image-extended to end 61 while the second is
separator-snapped back to end 54 — the emitted end offsets regress. -/
def gapText : List Char :=
  List.replicate 15 'a' ++ ['!', '[', 'x', ']', '('] ++
  List.replicate 33 'z' ++ [' '] ++ List.replicate 6 'z' ++ [')'] ++
  List.replicate 19 'a'

/-- `![a](bcdef` followed by nothing: a truncated Markdown image whose
remaining text (after tentative end 6) contains no closing parenthesis and
triggers no URL/path check. -/
def truncImgText : List Char :=
  ['!', '[', 'a', ']', '(', 'b', 'c', 'd', 'e', 'f']

/-- `![a](b)`: a truncated image at tentative end 6 whose closing
parenthesis is the next character. -/
def closedImgText : List Char :=
  ['!', '[', 'a', ']', '(', 'b', ')']

/-- 61 plain characters with a single space at offset 40, for the separator
snap witness. -/
def spaceText : List Char :=
  List.replicate 40 'a' ++ [' '] ++ List.replicate 20 'b'

/-! ## Basic lemmas -/

theorem sliceList_length (text : List Char) (s e : Nat) :
    (sliceList text s e).length = min (e - s) (text.length - s) := by
  simp [sliceList]

theorem mem_sliceList {c : Char} {text : List Char} {s e : Nat}
    (h : c ∈ sliceList text s e) : c ∈ text :=
  List.drop_subset s text (List.take_subset _ _ h)

theorem sliceList_zero_length (text : List Char) :
    sliceList text 0 text.length = text := by
  simp [sliceList]

theorem sliceList_append (text : List Char) {a b c : Nat} (hab : a ≤ b)
    (hbc : b ≤ c) :
    sliceList text a b ++ sliceList text b c = sliceList text a c := by
  unfold sliceList
  rw [show c - a = (b - a) + (c - b) by omega, List.take_add,
    List.drop_drop, show a + (b - a) = b by omega]

theorem sliceList_of_le {text : List Char} {s e : Nat} (h : e ≤ s) :
    sliceList text s e = [] := by
  simp [sliceList, Nat.sub_eq_zero_of_le h]

/-- `rfind` invariant: a hit at index `j` means the pattern fits inside the
haystack ending at or before its end. -/
theorem rfindGo_some_le (pat : List Char) :
    ∀ (hay : List Char) (i : Nat) (best : Option Nat),
      (∀ j, best = some j → j + pat.length ≤ i + hay.length) →
      ∀ j, rfindGo pat hay i best = some j →
        j + pat.length ≤ i + hay.length := by
  intro hay
  induction hay with
  | nil =>
    intro i best hbest j hj
    by_cases hp : pat.isPrefixOf ([] : List Char)
    · rw [rfindGo, if_pos hp] at hj
      cases pat with
      | nil => cases hj; simp
      | cons p ps => simp [List.isPrefixOf] at hp
    · rw [rfindGo, if_neg hp] at hj
      exact hbest j hj
  | cons c t ih =>
    intro i best hbest j hj
    have hlc : (c :: t).length = t.length + 1 := rfl
    rw [rfindGo] at hj
    have := ih (i + 1)
      (if pat.isPrefixOf (c :: t) then some i else best) ?_ j hj
    · omega
    · intro j' hj'
      by_cases hp : pat.isPrefixOf (c :: t)
      · rw [if_pos hp] at hj'
        cases hj'
        have hle : pat.length ≤ (c :: t).length :=
          (List.isPrefixOf_iff_prefix.mp hp).length_le
        omega
      · rw [if_neg hp] at hj'
        have := hbest j' hj'
        omega

theorem rfind_some_le {hay pat : List Char} {j : Nat}
    (h : rfind hay pat = some j) : j + pat.length ≤ hay.length := by
  have := rfindGo_some_le pat hay 0 none (by intro j h; cases h) j h
  omega

/-- If no character of the haystack equals the pattern's head, `rfind` finds
nothing. -/
theorem rfindGo_no_head {p : Char} (ps : List Char) :
    ∀ (hay : List Char) (i : Nat) (best : Option Nat),
      (∀ c ∈ hay, c ≠ p) → rfindGo (p :: ps) hay i best = best := by
  intro hay
  induction hay with
  | nil => intro i best _; simp [rfindGo, List.isPrefixOf]
  | cons c t ih =>
    intro i best h
    have hc : c ≠ p := h c (List.mem_cons_self _ _)
    have hp : (p :: ps).isPrefixOf (c :: t) = false := by
      simp [List.isPrefixOf]
      intro h'
      exact absurd h'.symm hc
    rw [rfindGo, hp]
    simp only [Bool.false_eq_true, if_false]
    exact ih (i + 1) best (fun c' hc' => h c' (List.mem_cons_of_mem _ hc'))

theorem rfind_no_head {p : Char} {ps hay : List Char}
    (h : ∀ c ∈ hay, c ≠ p) : rfind hay (p :: ps) = none :=
  rfindGo_no_head ps hay 0 none h

/-! ## No-trigger lemmas: a chunk of plain letters is never adjusted -/

namespace TextChunker

theorem adjustLoop_default_of_plain {m s e : Nat} {chunk : List Char}
    (h : ∀ c ∈ chunk, c ≠ '\n' ∧ c ≠ ' ') :
    adjustLoop m s e chunk DEFAULT_SEPARATORS = e := by
  have h1 : rfind chunk ['\n', '\n'] = none :=
    rfind_no_head (fun c hc => (h c hc).1)
  have h2 : rfind chunk ['\n'] = none :=
    rfind_no_head (fun c hc => (h c hc).1)
  have h3 : rfind chunk [' '] = none :=
    rfind_no_head (fun c hc => (h c hc).2)
  simp [DEFAULT_SEPARATORS, adjustLoop, h1, h2, h3, List.isEmpty]

theorem adjust_to_separator_of_plain {cs s e : Nat} {text : List Char}
    (h : ∀ c ∈ text, c ≠ '\n' ∧ c ≠ ' ') :
    adjust_to_separator cs DEFAULT_SEPARATORS text s e = e := by
  simp only [adjust_to_separator]
  split
  · rfl
  · split
    · rfl
    · exact adjustLoop_default_of_plain
        (fun c hc => h c (mem_sliceList hc))

theorem hasIncompleteImage_of_plain {chunk : List Char}
    (h : ∀ c ∈ chunk, c ≠ '!') : hasIncompleteImage chunk = false := by
  induction chunk with
  | nil => rfl
  | cons c t ih =>
    have hc : (c == '!') = false := by
      simpa using h c (List.mem_cons_self _ _)
    simp [hasIncompleteImage, hc,
      ih (fun c' hc' => h c' (List.mem_cons_of_mem _ hc'))]

theorem urlMatchLenAt_of_no_h {c : Char} {t : List Char} (h : c ≠ 'h') :
    urlMatchLenAt (c :: t) = none := by
  have h1 : List.isPrefixOf ['h', 't', 't', 'p', 's', ':', '/', '/']
      (c :: t) = false := by
    simp [List.isPrefixOf]
    intro h'
    exact absurd h'.symm h
  have h2 : List.isPrefixOf ['h', 't', 't', 'p', ':', '/', '/']
      (c :: t) = false := by
    simp [List.isPrefixOf]
    intro h'
    exact absurd h'.symm h
  simp [urlMatchLenAt, h1, h2]

theorem finditerLastEnd_of_no_h :
    ∀ (fuel : Nat) (s : List Char) (i : Nat) (best : Option Nat),
      (∀ c ∈ s, c ≠ 'h') → finditerLastEnd fuel s i best = best := by
  intro fuel
  induction fuel with
  | zero => intro s i best _; rfl
  | succ fuel ih =>
    intro s i best h
    cases s with
    | nil => rfl
    | cons c t =>
      rw [finditerLastEnd,
        urlMatchLenAt_of_no_h (h c (List.mem_cons_self _ _))]
      exact ih t (i + 1) best (fun c' hc' => h c' (List.mem_cons_of_mem _ hc'))

theorem check_url_of_no_h {text : List Char} {e : Nat} {chunk : List Char}
    (h : ∀ c ∈ chunk, c ≠ 'h') : check_url text e chunk = none := by
  have hfind := finditerLastEnd_of_no_h
    ((chunk.drop (chunk.length - min 150 chunk.length)).length + 1)
    (chunk.drop (chunk.length - min 150 chunk.length)) 0 none
    (fun c hc => h c (List.drop_subset _ _ hc))
  simp only [check_url, hfind]

theorem relPathSearch_of_no_slash {chunk : List Char}
    (h : ∀ c ∈ chunk, c ≠ '/') : relPathSearch chunk = false := by
  induction chunk with
  | nil => rfl
  | cons c t ih =>
    have hc : (c == '/') = false := by
      simpa using h c (List.mem_cons_self _ _)
    simp [relPathSearch, hc,
      ih (fun c' hc' => h c' (List.mem_cons_of_mem _ hc'))]

theorem genPathSearch_of_no_slash {chunk : List Char}
    (h : ∀ c ∈ chunk, c ≠ '/') : genPathSearch chunk = false := by
  induction chunk with
  | nil => rfl
  | cons c t ih =>
    have hc : (c == '/') = false := by
      simpa using h c (List.mem_cons_self _ _)
    simp [genPathSearch, hc,
      ih (fun c' hc' => h c' (List.mem_cons_of_mem _ hc'))]

theorem check_rel_path_of_no_slash {text : List Char} {e : Nat}
    {chunk : List Char} (h : ∀ c ∈ chunk, c ≠ '/') :
    check_rel_path text e chunk = none := by
  simp only [check_rel_path, relPathSearch_of_no_slash h,
    Bool.false_eq_true, if_false]

theorem check_gen_path_of_no_slash {text : List Char} {e : Nat}
    {chunk : List Char} (h : ∀ c ∈ chunk, c ≠ '/') :
    check_gen_path text e chunk = none := by
  simp only [check_gen_path, genPathSearch_of_no_slash h,
    Bool.false_eq_true, if_false]

theorem avoid_splitting_images_of_plain {s e : Nat} {text : List Char}
    (h : ∀ c ∈ text, c ≠ '!' ∧ c ≠ 'h' ∧ c ≠ '/') :
    avoid_splitting_images text s e = e := by
  have hs : ∀ c ∈ sliceList text s e, c ∈ text := fun c => mem_sliceList
  have hImg : hasIncompleteImage (sliceList text s e) = false :=
    hasIncompleteImage_of_plain (fun c hc => (h c (hs c hc)).1)
  have hUrl : check_url text e (sliceList text s e) = none :=
    check_url_of_no_h (fun c hc => (h c (hs c hc)).2.1)
  have hRel : check_rel_path text e (sliceList text s e) = none :=
    check_rel_path_of_no_slash (fun c hc => (h c (hs c hc)).2.2)
  have hGen : check_gen_path text e (sliceList text s e) = none :=
    check_gen_path_of_no_slash (fun c hc => (h c (hs c hc)).2.2)
  simp only [avoid_splitting_images, url_path_checks, hImg, hUrl, hRel, hGen,
    Bool.false_eq_true, if_false]

/-! ## Structural bounds of one loop iteration -/

/-- The separator loop either keeps the end or moves it into
`(start + min_chunk_length, e]`. -/
theorem adjustLoop_cases (m s e : Nat) (chunk : List Char) :
    ∀ seps : List (List Char),
      adjustLoop m s e chunk seps = e ∨
        (s < adjustLoop m s e chunk seps ∧ adjustLoop m s e chunk seps ≤ e ∧
          s + m + 1 ≤ adjustLoop m s e chunk seps) := by
  intro seps
  induction seps with
  | nil => exact Or.inl rfl
  | cons sep rest ih =>
    by_cases hemp : sep.isEmpty
    · simpa [adjustLoop, hemp] using ih
    · rcases hfind : rfind chunk sep with _ | idx
      · simpa [adjustLoop, hemp, hfind] using ih
      · by_cases hm : m ≤ idx
        · by_cases hg : s < s + idx + sep.length ∧ s + idx + sep.length ≤ e
          · right
            have hlen : 1 ≤ sep.length := by
              cases sep with
              | nil => simp [List.isEmpty] at hemp
              | cons a l => simp
            simp only [adjustLoop, hemp, hfind, if_pos hm, if_pos hg,
              Bool.false_eq_true, if_false]
            refine ⟨hg.1, hg.2, by omega⟩
          · simpa [adjustLoop, hemp, hfind, hm, hg] using ih
        · simpa [adjustLoop, hemp, hfind, hm] using ih

/-- `_adjust_to_separator` either keeps the end or moves it into
`(start + max(10, 3·chunk_size/10), e]`. -/
theorem adjust_to_separator_cases (cs : Nat) (seps : List (List Char))
    (text : List Char) (s e : Nat) :
    adjust_to_separator cs seps text s e = e ∨
      (s < adjust_to_separator cs seps text s e ∧
        adjust_to_separator cs seps text s e ≤ e ∧
        s + max 10 (3 * cs / 10) + 1 ≤ adjust_to_separator cs seps text s e) := by
  simp only [adjust_to_separator]
  split
  · exact Or.inl rfl
  · split
    · exact Or.inl rfl
    · exact adjustLoop_cases _ s e _ seps

/-- Every positive return of check 2 has the form `min (e + k) (len text)`. -/
theorem check_url_eq_some {text : List Char} {e : Nat} {chunk : List Char}
    {e2 : Nat} (h : check_url text e chunk = some e2) :
    ∃ k, e2 = min (e + k) text.length := by
  simp only [check_url] at h
  split at h
  · exact absurd h (by simp)
  · split at h
    · split at h
      · exact absurd h (by simp)
      · exact ⟨_, (Option.some_inj.mp h).symm⟩
    · exact absurd h (by simp)

/-- Every positive return of check 3 has the form `min (e + k) (len text)`. -/
theorem check_rel_path_eq_some {text : List Char} {e : Nat}
    {chunk : List Char} {e2 : Nat} (h : check_rel_path text e chunk = some e2) :
    ∃ k, e2 = min (e + k) text.length := by
  simp only [check_rel_path] at h
  split at h
  · split at h
    · exact ⟨_, (Option.some_inj.mp h).symm⟩
    · exact absurd h (by simp)
  · exact absurd h (by simp)

/-- Every positive return of check 4 has the form `min (e + k) (len text)`. -/
theorem check_gen_path_eq_some {text : List Char} {e : Nat}
    {chunk : List Char} {e2 : Nat} (h : check_gen_path text e chunk = some e2) :
    ∃ k, e2 = min (e + k) text.length := by
  simp only [check_gen_path] at h
  split at h
  · split at h
    · exact absurd h (by simp)
    · exact ⟨_, (Option.some_inj.mp h).symm⟩
  · exact absurd h (by simp)

/-- Checks 2–4 never pull the end backwards and never push it past the
text. -/
theorem url_path_checks_bounds (text : List Char) (s e : Nat)
    (he : e ≤ text.length) :
    e ≤ url_path_checks text s e ∧ url_path_checks text s e ≤ text.length := by
  simp only [url_path_checks]
  rcases h1 : check_url text e (sliceList text s e) with _ | e2
  · rcases h2 : check_rel_path text e (sliceList text s e) with _ | e2
    · rcases h3 : check_gen_path text e (sliceList text s e) with _ | e2
      · simp only [h1, h2, h3]
        exact ⟨le_refl e, he⟩
      · simp only [h1, h2, h3]
        obtain ⟨k, rfl⟩ := check_gen_path_eq_some h3
        exact ⟨Nat.le_min.mpr ⟨Nat.le_add_right _ _, he⟩, min_le_right _ _⟩
    · simp only [h1, h2]
      obtain ⟨k, rfl⟩ := check_rel_path_eq_some h2
      exact ⟨Nat.le_min.mpr ⟨Nat.le_add_right _ _, he⟩, min_le_right _ _⟩
  · simp only [h1]
    obtain ⟨k, rfl⟩ := check_url_eq_some h1
    exact ⟨Nat.le_min.mpr ⟨Nat.le_add_right _ _, he⟩, min_le_right _ _⟩

/-- `_avoid_splitting_images` never pulls the end backwards and never pushes
it past the text. -/
theorem avoid_splitting_images_bounds (text : List Char) (s e : Nat)
    (he : e ≤ text.length) :
    e ≤ avoid_splitting_images text s e ∧
      avoid_splitting_images text s e ≤ text.length := by
  have hchecks := url_path_checks_bounds text s e he
  simp only [avoid_splitting_images]
  split
  · rcases hf : List.findIdx? (fun c => c == ')') (List.drop e text)
      with _ | k
    · simp only [hf]
      exact hchecks
    · simp only [hf]
      exact ⟨Nat.le_min.mpr ⟨by omega, he⟩, min_le_right _ _⟩
  · exact hchecks

/-- One iteration's end strictly exceeds its start and stays within the
text. -/
theorem stepEnd_bounds (cs : Nat) (seps : List (List Char))
    (text : List Char) {s : Nat} (hs : s < text.length) :
    s < stepEnd cs seps text s ∧ stepEnd cs seps text s ≤ text.length := by
  simp only [stepEnd]
  set end0 := min (s + cs) text.length with h0
  set end1 := if end0 ≤ s then s + 1 else end0 with h1
  have hb1 : s < end1 ∧ end1 ≤ text.length := by
    rw [h1]
    split
    · constructor <;> omega
    · constructor <;> omega
  rcases adjust_to_separator_cases cs seps text s end1 with h2 | h2
  · set end2 := adjust_to_separator cs seps text s end1
    have hb2 : s < end2 ∧ end2 ≤ text.length := by rw [h2]; exact hb1
    have hb3 := avoid_splitting_images_bounds text s end2 hb2.2
    split
    · constructor <;> omega
    · constructor <;> omega
  · set end2 := adjust_to_separator cs seps text s end1
    have hb2 : s < end2 ∧ end2 ≤ text.length := ⟨h2.1, le_trans h2.2.1 hb1.2⟩
    have hb3 := avoid_splitting_images_bounds text s end2 hb2.2
    split
    · constructor <;> omega
    · constructor <;> omega

/-- Lower bound on the iteration's end (needs `chunk_size ≥ 1`): if the
separator phase did not fire, the end is at least the tentative
`min (start + chunk_size, len)`; if it fired, at least
`start + max(10, 3·chunk_size/10) + 1`. -/
theorem stepEnd_lower (cs : Nat) (seps : List (List Char))
    (text : List Char) {s : Nat} (hs : s < text.length) (hcs : 1 ≤ cs) :
    min (s + cs) text.length ≤ stepEnd cs seps text s ∨
      s + max 10 (3 * cs / 10) + 1 ≤ stepEnd cs seps text s := by
  simp only [stepEnd]
  have h0 : ¬ (min (s + cs) text.length ≤ s) := by omega
  rw [if_neg h0]
  rcases adjust_to_separator_cases cs seps text s (min (s + cs) text.length)
    with h2 | h2
  · left
    set end2 := adjust_to_separator cs seps text s (min (s + cs) text.length)
    have hb2 : end2 ≤ text.length := by rw [h2]; omega
    have hb3 := avoid_splitting_images_bounds text s end2 hb2
    split <;> omega
  · right
    set end2 := adjust_to_separator cs seps text s (min (s + cs) text.length)
    have hb2 : end2 ≤ text.length := by
      have := min_le_right (s + cs) text.length
      omega
    have hb3 := avoid_splitting_images_bounds text s end2 hb2
    split <;> omega

/-- Forward progress: the next start strictly exceeds the current one. -/
theorem stepNext_progress (cs ov : Nat) (seps : List (List Char))
    (text : List Char) (s : Nat) : s < stepNext cs ov seps text s := by
  simp only [stepNext]
  split
  · have : 1 ≤ max 1 (cs / 10) := le_max_left _ _
    omega
  · omega

/-! ## The loop -/

theorem chunkLoop_cons (cs ov : Nat) (seps : List (List Char))
    (text : List Char) {s : Nat} (hs : s < text.length) (fuel : Nat) :
    chunkLoop cs ov seps text s (fuel + 1) =
      (s, stepEnd cs seps text s) ::
        chunkLoop cs ov seps text (stepNext cs ov seps text s) fuel := by
  rw [chunkLoop.eq_def]
  simp [hs]

theorem chunkLoop_stop (cs ov : Nat) (seps : List (List Char))
    (text : List Char) {s : Nat} (hs : ¬ s < text.length) (fuel : Nat) :
    chunkLoop cs ov seps text s fuel = [] := by
  rw [chunkLoop.eq_def]
  simp [hs]

theorem chunkLoop_zero (cs ov : Nat) (seps : List (List Char))
    (text : List Char) (s : Nat) :
    chunkLoop cs ov seps text s 0 = [] := by
  by_cases hs : s < text.length
  · rw [chunkLoop.eq_def]
    simp [hs]
  · rw [chunkLoop.eq_def]
    simp [hs]

/-- Every span the loop emits starts at or after the loop entry start, is
non-degenerate, and ends within the text. -/
theorem chunkLoop_mem_spec (cs ov : Nat) (seps : List (List Char))
    (text : List Char) :
    ∀ (fuel s : Nat) (p : Nat × Nat), p ∈ chunkLoop cs ov seps text s fuel →
      s ≤ p.1 ∧ p.1 < p.2 ∧ p.2 ≤ text.length := by
  intro fuel
  induction fuel with
  | zero =>
    intro s p hp
    rw [chunkLoop_zero] at hp
    cases hp
  | succ fuel ih =>
    intro s p hp
    by_cases hs : s < text.length
    · rw [chunkLoop_cons cs ov seps text hs fuel] at hp
      rcases List.mem_cons.mp hp with rfl | hp
      · exact ⟨le_refl s, (stepEnd_bounds cs seps text hs).1,
          (stepEnd_bounds cs seps text hs).2⟩
      · have h := ih _ p hp
        have := stepNext_progress cs ov seps text s
        exact ⟨by omega, h.2.1, h.2.2⟩
    · rw [chunkLoop_stop cs ov seps text hs] at hp
      cases hp

/-- The loop emits at most `fuel` spans (the circuit breaker bounds the
iteration count). -/
theorem chunkLoop_length_le (cs ov : Nat) (seps : List (List Char))
    (text : List Char) :
    ∀ (fuel s : Nat), (chunkLoop cs ov seps text s fuel).length ≤ fuel := by
  intro fuel
  induction fuel with
  | zero => intro s; rw [chunkLoop_zero]; simp
  | succ fuel ih =>
    intro s
    by_cases hs : s < text.length
    · rw [chunkLoop_cons cs ov seps text hs fuel]
      simpa using ih _
    · rw [chunkLoop_stop cs ov seps text hs]
      simp

/-- The loop's result is `[]` or starts with a span whose start is the loop
entry start. -/
theorem chunkLoop_shape (cs ov : Nat) (seps : List (List Char))
    (text : List Char) (s fuel : Nat) :
    chunkLoop cs ov seps text s fuel = [] ∨
      ∃ e rest, chunkLoop cs ov seps text s fuel = (s, e) :: rest := by
  by_cases hs : s < text.length
  · cases fuel with
    | zero => exact Or.inl (chunkLoop_zero _ _ _ _ _)
    | succ fuel => exact Or.inr ⟨_, _, chunkLoop_cons cs ov seps text hs fuel⟩
  · exact Or.inl (chunkLoop_stop cs ov seps text hs fuel)

/-- The start offsets of successively emitted spans are strictly
increasing. -/
theorem chunkLoop_chain_lt (cs ov : Nat) (seps : List (List Char))
    (text : List Char) :
    ∀ (fuel s : Nat),
      List.Chain' (fun p q : Nat × Nat => p.1 < q.1)
        (chunkLoop cs ov seps text s fuel) := by
  intro fuel
  induction fuel with
  | zero => intro s; rw [chunkLoop_zero]; exact List.chain'_nil
  | succ fuel ih =>
    intro s
    by_cases hs : s < text.length
    · rw [chunkLoop_cons cs ov seps text hs fuel]
      refine List.chain'_cons'.mpr ⟨?_, ih _⟩
      intro q hq
      rcases chunkLoop_shape cs ov seps text
        (stepNext cs ov seps text s) fuel with h | ⟨e', rest, h⟩
      · rw [h] at hq
        cases hq
      · rw [h] at hq
        cases hq
        exact stepNext_progress cs ov seps text s
    · rw [chunkLoop_stop cs ov seps text hs]
      exact List.chain'_nil

/-! ## Coverage lemmas for the reconstruction claim -/

theorem max_one_div_le (cs : Nat) (hcs : 1 ≤ cs) :
    max 1 (cs / 10) ≤ cs := by
  have := Nat.div_le_self cs 10
  omega

theorem max_one_le_max_ten (cs : Nat) :
    max 1 (cs / 10) ≤ max 10 (3 * cs / 10) := by
  have : cs / 10 ≤ 3 * cs / 10 := Nat.div_le_div_right (by omega)
  omega

/-- The next start never jumps past the just-emitted end, unless the loop is
about to terminate. -/
theorem stepNext_le_stepEnd (cs ov : Nat) (seps : List (List Char))
    (text : List Char) {s : Nat} (hs : s < text.length) (hcs : 1 ≤ cs) :
    stepNext cs ov seps text s ≤ stepEnd cs seps text s ∨
      text.length ≤ stepNext cs ov seps text s := by
  have hlow := stepEnd_lower cs seps text hs hcs
  have hb := stepEnd_bounds cs seps text hs
  have h1 := max_one_div_le cs hcs
  have h2 := max_one_le_max_ten cs
  simp only [stepNext]
  split
  · rcases hlow with hlow | hlow <;> omega
  · omega

/-- When the next start reaches the end of the text, the just-emitted span
ends exactly at the end of the text. -/
theorem stepEnd_eq_len_of_next_ge (cs ov : Nat) (seps : List (List Char))
    (text : List Char) {s : Nat} (hs : s < text.length) (hcs : 1 ≤ cs)
    (hge : text.length ≤ stepNext cs ov seps text s) :
    stepEnd cs seps text s = text.length := by
  have hlow := stepEnd_lower cs seps text hs hcs
  have hb := stepEnd_bounds cs seps text hs
  have h1 := max_one_div_le cs hcs
  have h2 := max_one_le_max_ten cs
  simp only [stepNext] at hge
  split at hge
  · rcases hlow with hlow | hlow <;> omega
  · omega

/-- Claim C4's concatenation over the tail of the loop: provided the ends
are non-decreasing, each later segment contributes exactly
`text[prevEnd : end]`, and the whole tail contributes
`text[prevEnd : len text]`. -/
theorem reconstructRest_chunkLoop (cs ov : Nat) (seps : List (List Char))
    (text : List Char) (hcs : 1 ≤ cs) :
    ∀ (fuel s ps pe : Nat),
      text.length - s ≤ fuel →
      (s < text.length → s ≤ pe) →
      (¬ s < text.length → pe = text.length) →
      pe ≤ text.length →
      List.Chain' (fun p q : Nat × Nat => p.2 ≤ q.2)
        ((ps, pe) :: chunkLoop cs ov seps text s fuel) →
      reconstructRest text (ps, pe) (chunkLoop cs ov seps text s fuel) =
        sliceList text pe text.length := by
  intro fuel
  induction fuel with
  | zero =>
    intro s ps pe hfuel hle hstop hpe _
    have hs : ¬ s < text.length := by omega
    rw [chunkLoop_stop cs ov seps text hs, reconstructRest, hstop hs,
      sliceList_of_le (le_refl _)]
  | succ fuel ih =>
    intro s ps pe hfuel hle hstop hpe hchain
    by_cases hs : s < text.length
    · rw [chunkLoop_cons cs ov seps text hs fuel] at hchain ⊢
      have hd := stepEnd_bounds cs seps text hs
      have hpe2 : pe ≤ stepEnd cs seps text s :=
        (List.chain'_cons.mp hchain).1
      have hprog := stepNext_progress cs ov seps text s
      have hrest : reconstructRest text (s, stepEnd cs seps text s)
          (chunkLoop cs ov seps text (stepNext cs ov seps text s) fuel) =
          sliceList text (stepEnd cs seps text s) text.length := by
        refine ih (stepNext cs ov seps text s) s (stepEnd cs seps text s)
          (by omega) ?_ ?_ hd.2 (List.chain'_cons.mp hchain).2
        · intro hns
          rcases stepNext_le_stepEnd cs ov seps text hs hcs with h | h
          · exact h
          · omega
        · intro hns
          exact stepEnd_eq_len_of_next_ge cs ov seps text hs hcs (by omega)
      rw [reconstructRest, hrest, dropOverlapWithPrev,
        if_pos (show s ≤ pe from hle hs), min_eq_left hpe2,
        sliceList_append text hpe2 hd.2]
    · rw [chunkLoop_stop cs ov seps text hs, reconstructRest, hstop hs,
        sliceList_of_le (le_refl _)]

/-! ## Equivalence of the separator loop with the spec's `find_break` -/

/-- On a chunk shorter than the minimum retained length no separator can
qualify, so `find_break` returns nothing. -/
theorem find_break_none_of_short {cs : Nat} {chunk : List Char}
    (h : chunk.length < 10) :
    ∀ seps : List (List Char), find_break cs seps chunk = none := by
  intro seps
  induction seps with
  | nil => rfl
  | cons sep rest ih =>
    by_cases hemp : sep.isEmpty
    · simp [find_break, hemp, ih]
    · rcases hfind : rfind chunk sep with _ | idx
      · simp [find_break, hemp, hfind, ih]
      · have hle := rfind_some_le hfind
        have : ¬ (max 10 (3 * cs / 10) ≤ idx) := by omega
        simp [find_break, hemp, hfind, this, ih]

/-- When the chunk has exactly the length `e - s` of the slice it came from,
the source's extra guard `start < new_end ≤ end` is automatically satisfied,
and the separator loop computes exactly the spec's `find_break`. -/
theorem adjustLoop_eq_find_break (cs s e : Nat) (chunk : List Char)
    (hch : chunk.length ≤ e - s) :
    ∀ seps : List (List Char),
      adjustLoop (max 10 (3 * cs / 10)) s e chunk seps =
        (match find_break cs seps chunk with
          | some b => s + b
          | none => e) := by
  intro seps
  induction seps with
  | nil => rfl
  | cons sep rest ih =>
    by_cases hemp : sep.isEmpty
    · simp only [adjustLoop, find_break, hemp, if_true]
      exact ih
    · rcases hfind : rfind chunk sep with _ | idx
      · simp only [adjustLoop, find_break, hemp, hfind,
          Bool.false_eq_true, if_false]
        exact ih
      · by_cases hm : max 10 (3 * cs / 10) ≤ idx
        · have hle := rfind_some_le hfind
          have hg : s < s + idx + sep.length ∧ s + idx + sep.length ≤ e := by
            constructor <;> omega
          simp only [adjustLoop, find_break, hemp, hfind, if_pos hm,
            if_pos hg, Bool.false_eq_true, if_false]
          exact Nat.add_assoc s idx sep.length
        · simp only [adjustLoop, find_break, hemp, hfind, if_neg hm,
            Bool.false_eq_true, if_false]
          exact ih

/-! ## All-plain-letter texts: the loop degenerates to pure arithmetic -/

theorem stepEnd_plain (cs : Nat) (text : List Char)
    (hA : ∀ c ∈ text, c ≠ '\n' ∧ c ≠ ' ' ∧ c ≠ '!' ∧ c ≠ 'h' ∧ c ≠ '/')
    {s : Nat} (hs : s < text.length) (hcs : 1 ≤ cs) :
    stepEnd cs DEFAULT_SEPARATORS text s = min (s + cs) text.length := by
  simp only [stepEnd]
  have h0 : ¬ (min (s + cs) text.length ≤ s) := by omega
  rw [if_neg h0,
    adjust_to_separator_of_plain (fun c hc => ⟨(hA c hc).1, (hA c hc).2.1⟩),
    avoid_splitting_images_of_plain
      (fun c hc => ⟨(hA c hc).2.2.1, (hA c hc).2.2.2⟩),
    if_neg h0]

theorem chunkLoop_plain (cs ov : Nat) (text : List Char)
    (hA : ∀ c ∈ text, c ≠ '\n' ∧ c ≠ ' ' ∧ c ≠ '!' ∧ c ≠ 'h' ∧ c ≠ '/')
    (hcs : 1 ≤ cs) :
    ∀ (fuel s : Nat),
      chunkLoop cs ov DEFAULT_SEPARATORS text s fuel =
        plainLoop cs ov text.length s fuel := by
  intro fuel
  induction fuel with
  | zero =>
    intro s
    rw [chunkLoop_zero, plainLoop]
    split <;> rfl
  | succ fuel ih =>
    intro s
    by_cases hs : s < text.length
    · rw [chunkLoop_cons cs ov DEFAULT_SEPARATORS text hs fuel, plainLoop,
        if_pos hs]
      have he := stepEnd_plain cs text hA hs hcs
      have hn : stepNext cs ov DEFAULT_SEPARATORS text s =
          if min (s + cs) text.length - ov ≤ s then s + max 1 (cs / 10)
          else min (s + cs) text.length - ov := by
        simp only [stepNext, he]
      rw [he, hn, ih]
    · rw [chunkLoop_stop cs ov DEFAULT_SEPARATORS text hs, plainLoop,
        if_neg hs]

/-- The chunking of 2500 plain `'a'`s at `chunk_size = 1000`,
`chunk_overlap = 100` with the default separators, computed through the
arithmetic mirror of the loop. -/
theorem chunkSpans_allA_2500 :
    chunkSpans 1000 100 DEFAULT_SEPARATORS (List.replicate 2500 'a') =
      [(0, 1000), (900, 1900), (1800, 2500), (2400, 2500)] := by
  have hA : ∀ c ∈ List.replicate 2500 'a',
      c ≠ '\n' ∧ c ≠ ' ' ∧ c ≠ '!' ∧ c ≠ 'h' ∧ c ≠ '/' := by
    intro c hc
    rw [List.eq_of_mem_replicate hc]
    exact ⟨by decide, by decide, by decide, by decide, by decide⟩
  have hlen : (List.replicate 2500 'a').length = 2500 :=
    List.length_replicate _ _
  unfold chunkSpans
  rw [hlen, if_neg (by norm_num), if_neg (by norm_num),
    show (1000 : Int).toNat = 1000 from rfl,
    chunkLoop_plain 1000 100 (List.replicate 2500 'a') hA (by norm_num), hlen]
  decide

/-! ## The claims -/

/-- Claim C1 (counterexample).  The claim: for 2500 plain-ASCII characters
with no separators present, `chunk_size = 1000`, `chunk_overlap = 100`,
`separators = []`, `chunk` returns exactly 3 segments with starts
`0, 900, 1800`.  False: the loop re-enters with `start = 2400 < 2500` after
the third segment and emits a fourth segment `(2400, 2500)`. -/
theorem claim_C1_counterexample :
    ¬ ((chunkSpans 1000 100 (init_separators [])
        (List.replicate 2500 'a')).map Prod.fst = [0, 900, 1800]) := by
  rw [show init_separators [] = DEFAULT_SEPARATORS from rfl,
    chunkSpans_allA_2500]
  decide

/-- Claim C1 (amended).  For a text of 2500 plain-ASCII characters
containing no separator, `chunk_size = 1000`, `chunk_overlap = 100`,
`separators = []` (replaced by the defaults at construction), `chunk`
returns exactly 4 segments with spans `(0,1000)`, `(900,1900)`,
`(1800,2500)`, `(2400,2500)`: starts advance by
`chunk_size - chunk_overlap = 900` while a full step fits, and a final
short segment starts at `2500 - 100 = 2400`. -/
theorem claim_C1_amended :
    chunkSpans 1000 100 (init_separators []) (List.replicate 2500 'a') =
      [(0, 1000), (900, 1900), (1800, 2500), (2400, 2500)] := by
  rw [show init_separators [] = DEFAULT_SEPARATORS from rfl]
  exact chunkSpans_allA_2500

/-- Claim C2.  For every text and every valid configuration (including
adversarial ones), `chunk` terminates — the model is total — emitting at
most `len(text) + 1000` segments, one per loop iteration, the bound being
enforced by the `max_iterations` circuit breaker; and when the fuel of the
breaker runs out the loop stops and the segments accumulated so far are
returned (no exception): an exhausted loop contributes `[]`. -/
theorem claim_C2_bounded_iterations (cs : Int) (ov : Nat)
    (seps : List (List Char)) (text : List Char)
    (hvalid : cs = -1 ∨ (0 < cs ∧ (ov : Int) < cs)) :
    (chunkSpans cs ov seps text).length ≤ text.length + 1000 ∧
    (∀ s : Nat, chunkLoop cs.toNat ov seps text s 0 = []) := by
  constructor
  · by_cases h1 : cs = -1
    · simp only [chunkSpans, if_pos h1]
      simp
    · by_cases h2 : (text.length : Int) ≤ cs
      · simp only [chunkSpans, if_neg h1, if_pos h2]
        simp
      · simp only [chunkSpans, if_neg h1, if_neg h2]
        exact chunkLoop_length_le _ _ _ _ _ _
  · intro s
    exact chunkLoop_zero _ _ _ _ _

/-- Witness for C2 at `chunk_size = 2`, `chunk_overlap = 0` on `"aaaaa"`. -/
theorem claim_C2_witness :
    (chunkSpans 2 0 DEFAULT_SEPARATORS (List.replicate 5 'a')).length ≤
        (List.replicate 5 'a').length + 1000 ∧
      chunkLoop (2 : Int).toNat 0 DEFAULT_SEPARATORS
        (List.replicate 5 'a') 7 0 = [] :=
  ⟨(claim_C2_bounded_iterations 2 0 DEFAULT_SEPARATORS (List.replicate 5 'a')
      (Or.inr (by norm_num))).1,
    (claim_C2_bounded_iterations 2 0 DEFAULT_SEPARATORS (List.replicate 5 'a')
      (Or.inr (by norm_num))).2 7⟩

/-- Claim C3.  For every valid configuration with `chunk_size > 0` and
`len(text) > chunk_size`, the start offsets of successively emitted
segments are strictly increasing; the next start is `end - chunk_overlap`,
forced to `start + max(1, chunk_size/10)` whenever that fails to advance
(the second conjunct is the literal shape of the update). -/
theorem claim_C3_strict_progress (cs : Int) (ov : Nat)
    (seps : List (List Char)) (text : List Char) (hcs : 0 < cs)
    (hov : (ov : Int) < cs) (hlen : cs < (text.length : Int)) :
    List.Chain' (fun p q : Nat × Nat => p.1 < q.1)
        (chunkSpans cs ov seps text) ∧
    (∀ s : Nat, stepNext cs.toNat ov seps text s =
      if stepEnd cs.toNat seps text s - ov ≤ s then
        s + max 1 (cs.toNat / 10)
      else stepEnd cs.toNat seps text s - ov) := by
  refine ⟨?_, fun s => rfl⟩
  have h1 : ¬ cs = -1 := by omega
  have h2 : ¬ ((text.length : Int) ≤ cs) := by omega
  simp only [chunkSpans, if_neg h1, if_neg h2]
  exact chunkLoop_chain_lt _ _ _ _ _ _

/-- Witness for C3 at `chunk_size = 2`, `chunk_overlap = 0` on `"aaaaa"`. -/
theorem claim_C3_witness :
    List.Chain' (fun p q : Nat × Nat => p.1 < q.1)
      (chunkSpans 2 0 DEFAULT_SEPARATORS (List.replicate 5 'a')) :=
  (claim_C3_strict_progress 2 0 DEFAULT_SEPARATORS (List.replicate 5 'a')
    (by norm_num) (by norm_num) (by norm_num)).1

/-- Claim C4 (counterexample).  The claim: for every valid configuration
and text, concatenating each segment minus its overlap with the previous
one (the first taken whole) reconstructs the text.  False: with
`chunk_size = 20`, `chunk_overlap = 19`, separators `[" "]` on `gapText`
the protected-token extension makes segment 1 end at 61 while the
separator snap makes segment 2 end at 54, so segment 3's contribution
re-copies offsets 54–60. -/
theorem claim_C4_counterexample :
    reconstruct gapText (chunkSpans 20 19 [[' ']] gapText) ≠ gapText := by
  decide

/-- Claim C4 (amended).  For every valid configuration and text, *provided
the emitted end offsets are non-decreasing*, concatenating the first
segment whole and each later segment minus its overlap with its
predecessor reconstructs the text exactly. -/
theorem claim_C4_reconstruction (cs : Int) (ov : Nat)
    (seps : List (List Char)) (text : List Char)
    (hvalid : cs = -1 ∨ (0 < cs ∧ (ov : Int) < cs))
    (hmono : List.Chain' (fun p q : Nat × Nat => p.2 ≤ q.2)
      (chunkSpans cs ov seps text)) :
    reconstruct text (chunkSpans cs ov seps text) = text := by
  by_cases h1 : cs = -1
  · simp [chunkSpans, h1, reconstruct, reconstructRest, sliceList_zero_length]
  · by_cases h2 : (text.length : Int) ≤ cs
    · simp [chunkSpans, h1, h2, reconstruct, reconstructRest,
        sliceList_zero_length]
    · have hcs : 1 ≤ cs.toNat := by
        rcases hvalid with h | h
        · exact absurd h h1
        · omega
      have hlen : 0 < text.length := by omega
      simp only [chunkSpans, if_neg h1, if_neg h2] at hmono ⊢
      rw [show text.length + 1000 = (text.length + 999) + 1 from by omega]
        at hmono ⊢
      rw [chunkLoop_cons cs.toNat ov seps text hlen (text.length + 999)]
        at hmono ⊢
      have hb := stepEnd_bounds cs.toNat seps text hlen
      have hrest := reconstructRest_chunkLoop cs.toNat ov seps text hcs
        (text.length + 999) (stepNext cs.toNat ov seps text 0) 0
        (stepEnd cs.toNat seps text 0)
        (by omega)
        (fun hns => by
          rcases stepNext_le_stepEnd cs.toNat ov seps text hlen hcs with h | h
          · exact h
          · omega)
        (fun hns =>
          stepEnd_eq_len_of_next_ge cs.toNat ov seps text hlen hcs (by omega))
        hb.2 hmono
      rw [reconstruct, hrest,
        sliceList_append text (Nat.zero_le _) hb.2, sliceList_zero_length]

/-- Witness for C4 at `chunk_size = 2`, `chunk_overlap = 0` on `"aaaaa"`
(ends `2, 4, 5` are non-decreasing). -/
theorem claim_C4_witness :
    reconstruct (List.replicate 5 'a')
      (chunkSpans 2 0 DEFAULT_SEPARATORS (List.replicate 5 'a')) =
      List.replicate 5 'a' :=
  claim_C4_reconstruction 2 0 DEFAULT_SEPARATORS (List.replicate 5 'a')
    (Or.inr (by norm_num))
    (by
      rw [show chunkSpans 2 0 DEFAULT_SEPARATORS (List.replicate 5 'a') =
          [(0, 2), (2, 4), (4, 5)] from by decide]
      exact List.chain'_cons.mpr ⟨by norm_num,
        List.chain'_cons.mpr ⟨by norm_num, List.chain'_singleton _⟩⟩)

/-- Claim C5.  Whenever the tentative end lies strictly inside the text,
`_adjust_to_separator` computes exactly the spec's Separator Index
`find_break`: scan separators in priority order skipping the empty string,
pick the first one whose right-most occurrence is at offset
`≥ max(10, floor(0.3·chunk_size))`, and set the end to
`start + offset + len(separator)`; keep the tentative end when no
separator qualifies.  (The source's extra guard `new_end ≤ end` can never
fail because `rfind` occurrences fit inside the chunk.) -/
theorem claim_C5_separator_index (cs : Nat) (seps : List (List Char))
    (text : List Char) (s e : Nat) (h : e < text.length) :
    adjust_to_separator cs seps text s e =
      (match find_break cs seps (sliceList text s e) with
        | some b => s + b
        | none => e) := by
  simp only [adjust_to_separator, if_neg (not_le.mpr h)]
  by_cases hshort : (sliceList text s e).length < 10
  · rw [if_pos hshort, find_break_none_of_short hshort seps]
  · rw [if_neg hshort]
    apply adjustLoop_eq_find_break
    have := sliceList_length text s e
    omega

/-- Witness for C5: on `spaceText` with `chunk_size = 100`, separators
`[" "]`, tentative end 50, the space at offset 40 qualifies
(threshold 30) and the end becomes `0 + 40 + 1 = 41`. -/
theorem claim_C5_witness :
    adjust_to_separator 100 [[' ']] spaceText 0 50 = 41 ∧
    find_break 100 [[' ']] (sliceList spaceText 0 50) = some 41 := by
  constructor
  · rw [claim_C5_separator_index 100 [[' ']] spaceText 0 50 (by decide)]
    decide
  · decide

/-- Claim C6 (counterexample).  The claim: construction raises iff
`chunk_size` is neither `-1` nor positive, or `chunk_size ≠ -1` and
`chunk_overlap` lies outside `0 ≤ chunk_overlap < chunk_size`; in
particular negative overlap is rejected.  False at
`chunk_size = 10, chunk_overlap = -5`: the source only checks
`chunk_overlap >= chunk_size`, so the negative overlap is accepted. -/
theorem claim_C6_counterexample :
    ¬ (init_raises 10 (-5) = true ↔
        (((10 : Int) ≠ -1 ∧ ¬ (0 : Int) < 10) ∨
          ((10 : Int) ≠ -1 ∧
            ¬ ((0 : Int) ≤ -5 ∧ (-5 : Int) < 10)))) := by
  decide

/-- Claim C6 (amended).  Construction raises a configuration error iff
`chunk_size` is neither `-1` nor positive, or `chunk_size ≠ -1` and
`chunk_overlap ≥ chunk_size`; a negative `chunk_overlap` with a positive
`chunk_size` is accepted at construction. -/
theorem claim_C6_validation (cs ov : Int) :
    init_raises cs ov = true ↔
      ((cs ≠ -1 ∧ ¬ 0 < cs) ∨ (cs ≠ -1 ∧ cs ≤ ov)) := by
  simp only [init_raises, Bool.or_eq_true, Bool.and_eq_true, bne_iff_ne,
    decide_eq_true_eq]
  omega

/-- Claim C7 (counterexample).  The claim: when the forward scan for the
closing parenthesis of a truncated Markdown image reaches end-of-text
without finding one, the end is extended to `len(text)`.  False on
`truncImgText` at tentative end 6: the scan finds no `)`, no other check
fires, and the end stays 6 while `len(text) = 10`. -/
theorem claim_C7_counterexample :
    hasIncompleteImage (sliceList truncImgText 0 6) = true ∧
    List.findIdx? (fun c => c == ')') (truncImgText.drop 6) = none ∧
    avoid_splitting_images truncImgText 0 6 = 6 ∧
    truncImgText.length = 10 := by
  decide

/-- Claim C7 (amended).  When a tentative segment ends inside an
opened-but-unclosed Markdown image reference, the repair scans forward
from `end` for the next `)` and extends `end` to `end + k + 1` when that
delimiter is at relative offset `k`; when the scan reaches end-of-text
without finding one, the image branch performs *no* extension and the
URL/path checks run on the unchanged end. -/
theorem claim_C7_image_repair (text : List Char) (s e : Nat)
    (himg : hasIncompleteImage (sliceList text s e) = true) :
    (∀ k, List.findIdx? (fun c => c == ')') (text.drop e) = some k →
        avoid_splitting_images text s e = e + k + 1) ∧
    (List.findIdx? (fun c => c == ')') (text.drop e) = none →
        avoid_splitting_images text s e = url_path_checks text s e) := by
  constructor
  · intro k hk
    have hklt : k < (text.drop e).length :=
      (List.findIdx?_eq_some_iff_findIdx_eq.mp hk).1
    have hlen : (text.drop e).length = text.length - e :=
      List.length_drop e text
    simp only [avoid_splitting_images, himg, if_true, hk]
    omega
  · intro hnone
    simp only [avoid_splitting_images, himg, if_true, hnone]

/-- Witness for C7 on `closedImgText`: the `)` is at relative offset 0, so
the end moves from 6 to 7. -/
theorem claim_C7_witness :
    avoid_splitting_images closedImgText 0 6 = 6 + 0 + 1 :=
  (claim_C7_image_repair closedImgText 0 6 (by decide)).1 0 (by decide)

/-- Claim C8 (counterexample).  The claim: every emitted segment satisfies
`start < end`, even for the empty text.  False: on the empty text the fast
path returns the single empty segment `(0, 0)`. -/
theorem claim_C8_counterexample :
    chunk 1000 100 DEFAULT_SEPARATORS ([] : List Char) = [[]] ∧
    ¬ (∀ p ∈ chunkSpans 1000 100 DEFAULT_SEPARATORS ([] : List Char),
        p.1 < p.2) := by
  decide

/-- Claim C8 (amended).  For every valid configuration and every
*non-empty* text, every emitted segment satisfies `start < end` and
`end ≤ len(text)`: every returned chunk is a non-empty contiguous
substring of the input. -/
theorem claim_C8_segment_bounds (cs : Int) (ov : Nat)
    (seps : List (List Char)) (text : List Char)
    (hvalid : cs = -1 ∨ (0 < cs ∧ (ov : Int) < cs)) (hne : 0 < text.length) :
    ∀ p ∈ chunkSpans cs ov seps text, p.1 < p.2 ∧ p.2 ≤ text.length := by
  intro p hp
  by_cases h1 : cs = -1
  · simp only [chunkSpans, if_pos h1, List.mem_singleton] at hp
    rw [hp]
    exact ⟨hne, le_refl _⟩
  · by_cases h2 : (text.length : Int) ≤ cs
    · simp only [chunkSpans, if_neg h1, if_pos h2, List.mem_singleton] at hp
      rw [hp]
      exact ⟨hne, le_refl _⟩
    · simp only [chunkSpans, if_neg h1, if_neg h2] at hp
      have h := chunkLoop_mem_spec cs.toNat ov seps text _ _ p hp
      exact ⟨h.2.1, h.2.2⟩

/-- Witness for C8: the first span of chunking `"aaaaa"` at
`chunk_size = 2`, `chunk_overlap = 0` is `(0, 2)`, non-degenerate and
inside the text. -/
theorem claim_C8_witness :
    (0, 2).1 < ((0, 2) : Nat × Nat).2 ∧
      ((0, 2) : Nat × Nat).2 ≤ (List.replicate 5 'a').length :=
  claim_C8_segment_bounds 2 0 DEFAULT_SEPARATORS (List.replicate 5 'a')
    (Or.inr (by norm_num)) (by norm_num) (0, 2) (by decide)

/-- Claim C9.  For every configuration and text with `chunk_size = -1` or
`len(text) ≤ chunk_size`, `chunk` short-circuits to exactly one segment
spanning (and equal to) the whole text. -/
theorem claim_C9_fast_path (cs : Int) (ov : Nat) (seps : List (List Char))
    (text : List Char) (h : cs = -1 ∨ (text.length : Int) ≤ cs) :
    chunkSpans cs ov seps text = [(0, text.length)] ∧
    chunk cs ov seps text = [text] := by
  have hspans : chunkSpans cs ov seps text = [(0, text.length)] := by
    by_cases h1 : cs = -1
    · simp [chunkSpans, h1]
    · rcases h with h | h
      · exact absurd h h1
      · simp [chunkSpans, h1, h]
  exact ⟨hspans, by simp [chunk, hspans, sliceList_zero_length]⟩

/-- Witness for C9 at `chunk_size = -1` on `"xy"`. -/
theorem claim_C9_witness :
    chunkSpans (-1) 7 DEFAULT_SEPARATORS ['x', 'y'] = [(0, 2)] ∧
    chunk (-1) 7 DEFAULT_SEPARATORS ['x', 'y'] = [['x', 'y']] :=
  claim_C9_fast_path (-1) 7 DEFAULT_SEPARATORS ['x', 'y'] (Or.inl rfl)

/-- Claim C10.  A chunker constructed with `separators = []` (or omitted)
silently substitutes the default list `["\n\n", "\n", " ", ""]`, so
chunking with `separators = []` behaves identically, on every text, to
chunking with the defaults — separator snapping cannot be disabled by an
empty list. -/
theorem claim_C10_default_separators :
    init_separators [] = DEFAULT_SEPARATORS ∧
    ∀ (cs : Int) (ov : Nat) (text : List Char),
      chunk cs ov (init_separators []) text =
        chunk cs ov DEFAULT_SEPARATORS text :=
  ⟨rfl, fun _ _ _ => rfl⟩

end TextChunker

end Kbgo
